import Mathlib

/-!
Verification development for the `tdl` Go package (true Damerau–Levenshtein
distance, file `damerau-levenshtein.go`).

Shallow embedding conventions:
* Go strings are byte sequences, embedded as `List Nat` (each element a byte
  value `0..255`); `len` is `List.length`.
* The engine's `[][]int` workspace is embedded as `GoMatrix`: a square side
  length together with the cell contents as a function.  Go slice indexing
  panics when out of range; reads and writes therefore return `Option`
  (`none` models the runtime panic) after an explicit bounds check.
* A Go `map[rune]int` is embedded as a total function `Nat → Nat`: looking up
  a missing key in a Go map yields the zero value, so the empty map is the
  constantly-zero function and assignment is pointwise update.
* `for _, r := range a + b` iterates over the UTF-8 decoding of the byte
  sequence, yielding U+FFFD (and consuming one byte) at every invalid
  encoding, exactly as Go's string range loop does; `utf8Runes` models this.
* Go loops are embedded as structural recursions that process the loop
  iterations in order (`initATo K` performs iterations `i = 0 .. K-1`, etc.),
  threading the mutated state and propagating `none` on the first panic.
* All arithmetic on matrix entries and on index differences is `Int`
  arithmetic, matching Go `int` (the transposition term `i - i1 - 1` can be
  negative).  Quantities that are always non-negative (lengths, loop
  counters, map values) are kept as `Nat` and cast where Go mixes them.
-/

namespace tdl

/-- Embedding of the source's variadic `minimum`: seeds with `is[0]` and folds
`if min > i { min = i }` over the whole list.  The source panics on an empty
argument list; it is never called that way, and the embedding returns `0`
there. -/
def minimum (is : List Int) : Int :=
  match is with
  | [] => 0
  | i0 :: _ => is.foldl (fun mn i => if mn > i then i else mn) i0

/-- The engine's square `[][]int` workspace: `size` is the side length
(`New` allocates `maxSize` rows of `maxSize` ints each), `entry` the cell
contents. -/
structure GoMatrix where
  size : Nat
  entry : Nat → Nat → Int

/-- Reading `m[i][j]`; `none` models the index-out-of-range panic. -/
def GoMatrix.get (m : GoMatrix) (i j : Nat) : Option Int :=
  if i < m.size ∧ j < m.size then some (m.entry i j) else none

/-- Writing `m[i][j] = v`; `none` models the index-out-of-range panic. -/
def GoMatrix.set (m : GoMatrix) (i j : Nat) (v : Int) : Option GoMatrix :=
  if i < m.size ∧ j < m.size then
    some { size := m.size
           entry := fun i' j' => if i' = i ∧ j' = j then v else m.entry i' j' }
  else none

/-- One step of Go's UTF-8 decoding as performed by `range` over a string:
given the first byte and the remaining bytes, returns the decoded rune and
the number of additional bytes consumed beyond the first.  Invalid or
truncated encodings yield U+FFFD (`0xFFFD`) and consume only the first byte,
exactly like `unicode/utf8.DecodeRuneInString`. -/
def utf8Step (b0 : Nat) (t : List Nat) : Nat × Nat :=
  if b0 < 0x80 then (b0, 0)
  else if b0 < 0xC2 then (0xFFFD, 0)
  else if b0 ≤ 0xDF then
    match t with
    | b1 :: _ =>
      if 0x80 ≤ b1 ∧ b1 ≤ 0xBF then ((b0 % 0x20) * 0x40 + b1 % 0x40, 1)
      else (0xFFFD, 0)
    | [] => (0xFFFD, 0)
  else if b0 ≤ 0xEF then
    let lo1 := if b0 = 0xE0 then 0xA0 else 0x80
    let hi1 := if b0 = 0xED then 0x9F else 0xBF
    match t with
    | b1 :: b2 :: _ =>
      if lo1 ≤ b1 ∧ b1 ≤ hi1 then
        if 0x80 ≤ b2 ∧ b2 ≤ 0xBF then
          ((b0 % 0x10) * 0x1000 + (b1 % 0x40) * 0x40 + b2 % 0x40, 2)
        else (0xFFFD, 0)
      else (0xFFFD, 0)
    | _ => (0xFFFD, 0)
  else if b0 ≤ 0xF4 then
    let lo1 := if b0 = 0xF0 then 0x90 else 0x80
    let hi1 := if b0 = 0xF4 then 0x8F else 0xBF
    match t with
    | b1 :: b2 :: b3 :: _ =>
      if lo1 ≤ b1 ∧ b1 ≤ hi1 then
        if 0x80 ≤ b2 ∧ b2 ≤ 0xBF then
          if 0x80 ≤ b3 ∧ b3 ≤ 0xBF then
            ((b0 % 0x8) * 0x40000 + (b1 % 0x40) * 0x1000 +
              (b2 % 0x40) * 0x40 + b3 % 0x40, 3)
          else (0xFFFD, 0)
        else (0xFFFD, 0)
      else (0xFFFD, 0)
    | _ => (0xFFFD, 0)
  else (0xFFFD, 0)

/-- The rune sequence produced by ranging over a byte sequence, with explicit
fuel for structural termination (each step consumes at least the head byte,
so `l.length` fuel always suffices). -/
def utf8RunesAux : Nat → List Nat → List Nat
  | _, [] => []
  | 0, _ :: _ => []
  | fuel + 1, b0 :: t =>
    let p := utf8Step b0 t
    p.1 :: utf8RunesAux fuel (t.drop p.2)

/-- The runes visited by `for _, r := range s` on the byte sequence `s`. -/
def utf8Runes (l : List Nat) : List Nat := utf8RunesAux l.length l

/-- Embedding of `for _, r := range a + b { t.da[r] = 0 }`: zero the LastSeen
entry of every rune of the concatenation. -/
def resetRunes (da : Nat → Nat) (l : List Nat) : Nat → Nat :=
  (utf8Runes l).foldl (fun d r => fun r' => if r' = r then 0 else d r') da

/-- The engine struct: capacity bound, reusable workspace matrix, and the
LastSeen map `da` (rune → most recent 1-based position). -/
structure TrueDamerauLevenshtein where
  maxSize : Nat
  matrix : GoMatrix
  da : Nat → Nat

/-- Embedding of `New`: a `maxSize × maxSize` zero matrix (the source
allocates `make([][]int, maxSize)` with rows `make([]int, maxSize)`) and the
empty LastSeen map. -/
def New (maxSize : Nat) : TrueDamerauLevenshtein :=
  { maxSize := maxSize
    matrix := { size := maxSize, entry := fun _ _ => 0 }
    da := fun _ => 0 }

/-- The body of the inner (`j`) loop of `Distance` at row `i`, column `j`:
reads `i1` from the LastSeen map and `j1` from `db`, computes the cost and the
four-way minimum, and writes cell `(i+1, j+1)`.  Returns the updated matrix
and `db`.  Loop indices satisfy `1 ≤ i` and `1 ≤ j`, so `a.getD (i-1) 0`
and `b.getD (j-1) 0` are exactly the in-range byte accesses `a[i-1]`,
`b[j-1]` of the source. -/
def innerBody (a b : List Nat) (da : Nat → Nat) (i j : Nat) (mat : GoMatrix)
    (db : Nat) : Option (GoMatrix × Nat) :=
  let i1 := da (b.getD (j - 1) 0)
  let j1 := db
  let cost : Int := if a.getD (i - 1) 0 = b.getD (j - 1) 0 then 0 else 1
  let db1 : Nat := if a.getD (i - 1) 0 = b.getD (j - 1) 0 then j else db
  (mat.get i j).bind fun t1 =>
    (mat.get (i + 1) j).bind fun t2 =>
      (mat.get i (j + 1)).bind fun t3 =>
        (mat.get i1 j1).bind fun t4 =>
          (mat.set (i + 1) (j + 1) (minimum [t1 + cost, t2 + 1, t3 + 1,
              t4 + ((i : Int) - (i1 : Int) - 1) + 1 +
                ((j : Int) - (j1 : Int) - 1)])).bind fun mat1 =>
            some (mat1, db1)

/-- Iterations `j = 1 .. J` of the inner loop (in order), starting from the
given matrix and `db`. -/
def innerTo (a b : List Nat) (da : Nat → Nat) (i : Nat) :
    Nat → GoMatrix → Nat → Option (GoMatrix × Nat)
  | 0, mat, db => some (mat, db)
  | J + 1, mat, db =>
    (innerTo a b da i J mat db).bind fun st =>
      innerBody a b da i (J + 1) st.1 st.2

/-- Iterations `i = 1 .. I` of the outer loop (in order): each row runs the
inner loop over all of `b` with `db = 0` and then records
`da[rune(a[i-1])] = i`. -/
def outerTo (a b : List Nat) :
    Nat → GoMatrix → (Nat → Nat) → Option (GoMatrix × (Nat → Nat))
  | 0, mat, da => some (mat, da)
  | I + 1, mat, da =>
    (outerTo a b I mat da).bind fun st =>
      (innerTo a b st.2 (I + 1) b.length st.1 0).bind fun st2 =>
        some (st2.1, fun r => if r = a.getD I 0 then I + 1 else st.2 r)

/-- Iterations `i = 0 .. K-1` of the first init loop:
`t.matrix[i+1][1] = i; t.matrix[i+1][0] = t.matrix[0][0]`. -/
def initATo : Nat → GoMatrix → Option GoMatrix
  | 0, mat => some mat
  | K + 1, mat =>
    (initATo K mat).bind fun mat1 =>
      (mat1.set (K + 1) 1 (K : Int)).bind fun mat2 =>
        (mat2.get 0 0).bind fun s => mat2.set (K + 1) 0 s

/-- Iterations `j = 0 .. K-1` of the second init loop:
`t.matrix[1][j+1] = j; t.matrix[0][j+1] = t.matrix[0][0]`. -/
def initBTo : Nat → GoMatrix → Option GoMatrix
  | 0, mat => some mat
  | K + 1, mat =>
    (initBTo K mat).bind fun mat1 =>
      (mat1.set 1 (K + 1) (K : Int)).bind fun mat2 =>
        (mat2.get 0 0).bind fun s => mat2.set 0 (K + 1) s

/-- Embedding of the method `(t *TrueDamerauLevenshtein) Distance(a, b)`.
Returns the computed `int` together with the engine's post-call state
(`Distance` mutates the workspace and LastSeen map in place); `none` models a
runtime panic (index out of range). -/
def TrueDamerauLevenshtein.Distance (t : TrueDamerauLevenshtein)
    (a b : List Nat) : Option (Int × TrueDamerauLevenshtein) :=
  let lenA := a.length
  let lenB := b.length
  if lenA < 1 then some ((lenB : Int), t)
  else if lenB < 1 then some ((lenA : Int), t)
  else if t.maxSize < lenA then some (-1, t)
  else if t.maxSize < lenB then some (-1, t)
  else
    (t.matrix.set 0 0 ((lenA : Int) + (lenB : Int) + 1)).bind fun m0 =>
      (initATo (lenA + 1) m0).bind fun m1 =>
        (initBTo (lenB + 1) m1).bind fun m2 =>
          (outerTo a b lenA m2 (resetRunes t.da (a ++ b))).bind fun st =>
            (st.1.get (lenA + 1) (lenB + 1)).bind fun r =>
              some (r, { t with matrix := st.1, da := st.2 })

/-- The value a `Distance` call returns (discarding the post-call engine
state); `none` is a panic. -/
def distVal (t : TrueDamerauLevenshtein) (a b : List Nat) : Option Int :=
  (t.Distance a b).map Prod.fst

/-- The largest 1-based position `p ≤ k` with `s[p-1] = c`, or `0` when there
is none.  This is the value the LastSeen map holds for key `c` after the
outer loop has processed rows `1 .. k`, and (instantiated on `b`) the value
of `db` after the inner loop has scanned columns `1 .. k`. -/
def lastPos (s : List Nat) (c : Nat) : Nat → Nat
  | 0 => 0
  | k + 1 => if s.getD k 0 = c then k + 1 else lastPos s c k

/-- The Lowrance–Wagner table of spec §4, with the indexing the source's
matrix uses: `LWmat a b r c` is the value cell `(r, c)` of the workspace
holds once `Distance a b` has run (for `r ≤ len a + 1`, `c ≤ len b + 1`).
Row 0 and column 0 hold the sentinel `len a + len b + 1`; row 1 and column 1
hold the prefix-length base cases; the interior cell `(i+1, j+1)` (for loop
indices `1 ≤ i`, `1 ≤ j`) is the four-way minimum over substitution,
insertion, deletion, and the transposition lookback through
`(i1, j1) = (lastPos a b[j] (i-1), lastPos b a[i] (j-1))`. -/
def LWmat (a b : List Nat) : Nat → Nat → Int
  | 0, _ => ((a.length : Int) + (b.length : Int) + 1)
  | _ + 1, 0 => ((a.length : Int) + (b.length : Int) + 1)
  | 1, j' + 1 => (j' : Int)
  | i' + 2, 1 => ((i' : Int) + 1)
  | i' + 2, j' + 2 =>
    let i1 := lastPos a (b.getD j' 0) (i' + 1 - 1)
    let j1 := lastPos b (a.getD i' 0) (j' + 1 - 1)
    let cost : Int := if a.getD i' 0 = b.getD j' 0 then 0 else 1
    minimum [LWmat a b (i' + 1) (j' + 1) + cost,
      LWmat a b (i' + 2) (j' + 1) + 1,
      LWmat a b (i' + 1) (j' + 2) + 1,
      LWmat a b i1 j1 + (((i' : Int) + 1) - (i1 : Int) - 1) + 1 +
        (((j' : Int) + 1) - (j1 : Int) - 1)]
  termination_by i j => i + j
  decreasing_by
  · omega
  · omega
  · omega
  · have hgen : ∀ (s : List Nat) (c : Nat) (k : Nat), lastPos s c k ≤ k := by
      intro s c k
      induction k with
      | zero => simp [lastPos]
      | succ k ih =>
        rw [lastPos]
        split
        · exact Nat.le_refl _
        · exact Nat.le_succ_of_le ih
    have h1 := hgen a (b.getD j' 0) (i' + 1 - 1)
    have h2 := hgen b (a.getD i' 0) (j' + 1 - 1)
    omega

/-- Byte sequences of the spec §8 concrete-scenario strings. -/
def kitten : List Nat := [107, 105, 116, 116, 101, 110]

def sitting : List Nat := [115, 105, 116, 116, 105, 110, 103]

def abStr : List Nat := [97, 98]

def baStr : List Nat := [98, 97]

def caStr : List Nat := [99, 97]

def abcStr : List Nat := [97, 98, 99]

def aCat : List Nat := [97, 32, 99, 97, 116]

def anAct : List Nat := [97, 110, 32, 97, 99, 116]

def bookStr : List Nat := [98, 111, 111, 107]

def backStr : List Nat := [98, 97, 99, 107]

/-- The six spec §8 concrete scenarios, issued in order through one shared
`New 100` engine — exactly what six successive calls of the package-level
convenience `Distance` wrapper do, since that wrapper routes every call
through the single package-wide engine `tdl = New(100)`. -/
def scenarioResults : Option (List Int) :=
  ((New 100).Distance [] []).bind fun s1 =>
    (s1.2.Distance kitten sitting).bind fun s2 =>
      (s2.2.Distance abStr baStr).bind fun s3 =>
        (s3.2.Distance caStr abcStr).bind fun s4 =>
          (s4.2.Distance aCat anAct).bind fun s5 =>
            (s5.2.Distance bookStr backStr).bind fun s6 =>
              some [s1.1, s2.1, s3.1, s4.1, s5.1, s6.1]

/-- The value of `Distance("ab", "b\xC3")` as the second call on a shared
`New 10` engine whose first call was `Distance("\xC3", "x")` (the byte
`0xC3` is an unfinished UTF-8 prefix: the per-call reset, which iterates
over decoded runes, zeroes key `0xFFFD` but not the byte key `0xC3` that the
look-ups use). -/
def c5SecondCallVal : Option Int :=
  ((New 10).Distance [0xC3] [0x78]).bind fun st =>
    distVal st.2 [0x61, 0x62] [0x62, 0xC3]

/-- An engine state reachable by one prior call on a `New 6` engine, used to
witness history-independence on ASCII inputs. -/
def engineAfterCall : TrueDamerauLevenshtein :=
  (((New 6).Distance [99] [100]).map Prod.snd).getD (New 6)

/-- The value of `Distance("a", "bcad\xC3")` as the second call on a shared
`New 10` engine whose first call was `Distance("\xC3\xC3\xC3", "\xC3\xC3")`.
Both inputs of the second call are non-empty and well within the capacity
(lengths 1 and 5 against `maxSize = 10`), yet the stale byte-keyed entry
`da[0xC3] = 3` left by the first call makes the transposition term read the
leftover cell `matrix[3][3] = 0` with offset `(1-3-1) + 1 + (5-3-1) = -1`,
so the computed "distance" is the sentinel value `-1` itself. -/
def c4StaleCallVal : Option Int :=
  ((New 10).Distance [0xC3, 0xC3, 0xC3] [0xC3, 0xC3]).bind fun st =>
    distVal st.2 [0x61] [0x62, 0x63, 0x61, 0x64, 0xC3]

/-! Basic facts about `minimum` and the recurrence table. -/

theorem lastPos_le (s : List Nat) (c : Nat) : ∀ k, lastPos s c k ≤ k := by
  intro k
  induction k with
  | zero => simp [lastPos]
  | succ k ih =>
    rw [lastPos]
    split
    · exact Nat.le_refl _
    · exact Nat.le_succ_of_le ih

theorem minimum_quad (p q r s : Int) :
    minimum [p, q, r, s] = min (min (min p q) r) s := by
  simp only [minimum, List.foldl]
  split_ifs <;> omega

/-- Interior unfolding of the recurrence at matrix cell `(i'+2, j'+2)`
(loop indices `i = i'+1`, `j = j'+1`). -/
theorem LWmat_interior (a b : List Nat) (i' j' : Nat) :
    LWmat a b (i' + 2) (j' + 2) =
      minimum [LWmat a b (i' + 1) (j' + 1) +
          (if a.getD i' 0 = b.getD j' 0 then (0 : Int) else 1),
        LWmat a b (i' + 2) (j' + 1) + 1,
        LWmat a b (i' + 1) (j' + 2) + 1,
        LWmat a b (lastPos a (b.getD j' 0) i') (lastPos b (a.getD i' 0) j') +
          (((i' : Int) + 1) - ((lastPos a (b.getD j' 0) i' : Int)) - 1) + 1 +
          (((j' : Int) + 1) - ((lastPos b (a.getD i' 0) j' : Int)) - 1)] := by
  rw [LWmat]
  simp only [Nat.add_sub_cancel]

theorem quad_min_le_first (p q r s : Int) : min (min (min p q) r) s ≤ p :=
  le_trans (min_le_left _ _) (le_trans (min_le_left _ _) (min_le_left _ _))

theorem le_quad_min {c p q r s : Int} (h1 : c ≤ p) (h2 : c ≤ q) (h3 : c ≤ r)
    (h4 : c ≤ s) : c ≤ min (min (min p q) r) s :=
  le_min (le_min (le_min h1 h2) h3) h4

theorem quad_min_swap_mid (p q r s : Int) :
    min (min (min p q) r) s = min (min (min p r) q) s := by
  rw [min_right_comm p q r]

theorem quad_min_eq_first {p q r s : Int} (h1 : p ≤ q) (h2 : p ≤ r)
    (h3 : p ≤ s) : min (min (min p q) r) s = p :=
  le_antisymm (quad_min_le_first p q r s) (le_quad_min le_rfl h1 h2 h3)

theorem LWmat_nonneg_aux (a b : List Nat) :
    ∀ s i j, i + j ≤ s → 0 ≤ LWmat a b i j := by
  intro s
  induction s with
  | zero =>
    intro i j h
    have hi : i = 0 := by omega
    subst hi
    simp [LWmat]
    omega
  | succ s ih =>
    intro i j h
    match i, j with
    | 0, j =>
      simp [LWmat]
      omega
    | i + 1, 0 =>
      simp [LWmat]
      omega
    | 1, j' + 1 =>
      simp [LWmat]
    | i' + 2, 1 =>
      simp [LWmat]
      omega
    | i' + 2, j' + 2 =>
      rw [LWmat_interior, minimum_quad]
      have h1 := ih (i' + 1) (j' + 1) (by omega)
      have h2 := ih (i' + 2) (j' + 1) (by omega)
      have h3 := ih (i' + 1) (j' + 2) (by omega)
      have hl1 := lastPos_le a (b.getD j' 0) i'
      have hl2 := lastPos_le b (a.getD i' 0) j'
      have h4 := ih (lastPos a (b.getD j' 0) i') (lastPos b (a.getD i' 0) j')
        (by omega)
      refine le_quad_min ?_ ?_ ?_ ?_
      · split_ifs <;> omega
      · omega
      · omega
      · omega

theorem LWmat_nonneg (a b : List Nat) (i j : Nat) : 0 ≤ LWmat a b i j :=
  LWmat_nonneg_aux a b (i + j) i j (Nat.le_refl _)

theorem LWmat_symm_aux (a b : List Nat) :
    ∀ s i j, i + j ≤ s → LWmat a b i j = LWmat b a j i := by
  intro s
  induction s with
  | zero =>
    intro i j h
    have hi : i = 0 := by omega
    have hj : j = 0 := by omega
    subst hi; subst hj
    simp [LWmat]
    omega
  | succ s ih =>
    intro i j h
    match i, j with
    | 0, 0 =>
      simp [LWmat]
      omega
    | 0, j + 1 =>
      simp [LWmat]
      omega
    | i + 1, 0 =>
      simp [LWmat]
      omega
    | 1, 1 =>
      simp [LWmat]
    | 1, j'' + 2 =>
      simp [LWmat]
    | i'' + 2, 1 =>
      simp [LWmat]
    | i' + 2, j' + 2 =>
      rw [LWmat_interior, LWmat_interior]
      have e1 : LWmat a b (i' + 1) (j' + 1) = LWmat b a (j' + 1) (i' + 1) :=
        ih _ _ (by omega)
      have e2 : LWmat a b (i' + 2) (j' + 1) = LWmat b a (j' + 1) (i' + 2) :=
        ih _ _ (by omega)
      have e3 : LWmat a b (i' + 1) (j' + 2) = LWmat b a (j' + 2) (i' + 1) :=
        ih _ _ (by omega)
      have hl1 := lastPos_le a (b.getD j' 0) i'
      have hl2 := lastPos_le b (a.getD i' 0) j'
      have e4 : LWmat a b (lastPos a (b.getD j' 0) i') (lastPos b (a.getD i' 0) j') =
          LWmat b a (lastPos b (a.getD i' 0) j') (lastPos a (b.getD j' 0) i') :=
        ih _ _ (by omega)
      have hc : (b.getD j' 0 = a.getD i' 0) ↔ (a.getD i' 0 = b.getD j' 0) :=
        eq_comm
      rw [minimum_quad, minimum_quad, e1, e2, e3, e4]
      simp only [hc]
      rw [quad_min_swap_mid]
      congr 1
      ring

theorem LWmat_symm (a b : List Nat) (i j : Nat) :
    LWmat a b i j = LWmat b a j i :=
  LWmat_symm_aux a b (i + j) i j (Nat.le_refl _)

theorem LWmat_diag (a : List Nat) :
    ∀ i, i ≤ a.length → LWmat a a (i + 1) (i + 1) = 0 := by
  intro i
  induction i with
  | zero => intro _; simp [LWmat]
  | succ i ih =>
    intro hle
    rw [show i + 1 + 1 = i + 2 from rfl, LWmat_interior, minimum_quad]
    have h0 : LWmat a a (i + 1) (i + 1) = 0 := ih (by omega)
    have h2 := LWmat_nonneg a a (i + 2) (i + 1)
    have h3 := LWmat_nonneg a a (i + 1) (i + 2)
    have hl1 := lastPos_le a (a.getD i 0) i
    have h4 := LWmat_nonneg a a (lastPos a (a.getD i 0) i) (lastPos a (a.getD i 0) i)
    rw [h0]
    have hcost : (if a.getD i 0 = a.getD i 0 then (0 : Int) else 1) = 0 :=
      if_pos rfl
    rw [hcost]
    refine (quad_min_eq_first ?_ ?_ ?_).trans (by ring)
    · omega
    · omega
    · omega

/-! Access lemmas for the workspace matrix and the LastSeen reset. -/

theorem GoMatrix.get_in (m : GoMatrix) (i j : Nat) (hi : i < m.size)
    (hj : j < m.size) : m.get i j = some (m.entry i j) := by
  simp [GoMatrix.get, hi, hj]

theorem GoMatrix.set_in (m : GoMatrix) (i j : Nat) (v : Int) (hi : i < m.size)
    (hj : j < m.size) :
    m.set i j v =
      some ⟨m.size, fun i' j' => if i' = i ∧ j' = j then v else m.entry i' j'⟩ := by
  simp [GoMatrix.set, hi, hj]

theorem GoMatrix.set_out (m : GoMatrix) (i j : Nat) (v : Int)
    (h : ¬(i < m.size ∧ j < m.size)) : m.set i j v = none := by
  simp only [GoMatrix.set, if_neg h]

theorem foldl_reset_eq (rs : List Nat) :
    ∀ (da : Nat → Nat) (c : Nat),
      rs.foldl (fun d r => fun r' => if r' = r then 0 else d r') da c =
        if c ∈ rs then 0 else da c := by
  induction rs with
  | nil => intro da c; simp
  | cons r rs ih =>
    intro da c
    rw [List.foldl_cons, ih]
    by_cases hm : c ∈ rs
    · simp [hm]
    · by_cases hc : c = r
      · simp [hm, hc]
      · simp [hm, hc]

theorem resetRunes_eq (da : Nat → Nat) (l : List Nat) (c : Nat) :
    resetRunes da l c = if c ∈ utf8Runes l then 0 else da c :=
  foldl_reset_eq (utf8Runes l) da c

theorem resetRunes_zero (l : List Nat) (c : Nat) :
    resetRunes (fun _ => 0) l c = 0 := by
  rw [resetRunes_eq]
  split <;> rfl

/-! Characterization of the two border-initialization loops. -/

/-- After iterations `0 .. K-1` of the first init loop (all writes in range):
column 1 of rows `1 .. K` holds `r - 1`, column 0 of rows `1 .. K` holds the
original `(0,0)` entry (the sentinel), and every other cell is untouched. -/
theorem initATo_spec :
    ∀ (K : Nat) (mat : GoMatrix), K < mat.size →
      ∃ mat', initATo K mat = some mat' ∧ mat'.size = mat.size ∧
        ∀ r c, mat'.entry r c =
          if 1 ≤ r ∧ r ≤ K ∧ c = 1 then ((r : Int) - 1)
          else if 1 ≤ r ∧ r ≤ K ∧ c = 0 then mat.entry 0 0
          else mat.entry r c := by
  intro K
  induction K with
  | zero =>
    intro mat _
    refine ⟨mat, rfl, rfl, fun r c => ?_⟩
    rw [if_neg (by omega), if_neg (by omega)]
  | succ K ih =>
    intro mat h
    obtain ⟨mat1, he, hsz, hch⟩ := ih mat (by omega)
    have hK1 : K + 1 < mat1.size := by omega
    have h1 : 1 < mat1.size := by omega
    have h0 : 0 < mat1.size := by omega
    simp only [initATo, he, Option.some_bind]
    rw [GoMatrix.set_in mat1 (K + 1) 1 (K : Int) hK1 h1, Option.some_bind]
    set mat2 : GoMatrix :=
      ⟨mat1.size, fun i' j' =>
        if i' = K + 1 ∧ j' = 1 then (K : Int) else mat1.entry i' j'⟩ with hm2
    have hz2 : mat2.entry 0 0 = mat.entry 0 0 := by
      show (if (0 : Nat) = K + 1 ∧ (0 : Nat) = 1 then (K : Int)
          else mat1.entry 0 0) = mat.entry 0 0
      rw [if_neg (by omega), hch 0 0, if_neg (by omega), if_neg (by omega)]
    rw [GoMatrix.get_in mat2 0 0 h0 h0, Option.some_bind, hz2]
    rw [GoMatrix.set_in mat2 (K + 1) 0 (mat.entry 0 0) hK1 h0]
    refine ⟨_, rfl, hsz, fun r c => ?_⟩
    show (if r = K + 1 ∧ c = 0 then mat.entry 0 0
      else if r = K + 1 ∧ c = 1 then (K : Int) else mat1.entry r c) = _
    by_cases hr : r = K + 1
    · subst hr
      by_cases hc0 : c = 0
      · subst hc0
        rw [if_pos ⟨rfl, rfl⟩, if_neg (by omega), if_pos (by omega)]
      · rw [if_neg (by omega)]
        by_cases hc1 : c = 1
        · subst hc1
          rw [if_pos ⟨rfl, rfl⟩, if_pos (by omega)]
          push_cast
          ring
        · rw [if_neg (by omega), hch, if_neg (by omega), if_neg (by omega),
            if_neg (by omega), if_neg (by omega)]
    · rw [if_neg (by omega), if_neg (by omega), hch]
      by_cases hin1 : 1 ≤ r ∧ r ≤ K ∧ c = 1
      · rw [if_pos hin1, if_pos (by omega)]
      · rw [if_neg hin1]
        by_cases hin0 : 1 ≤ r ∧ r ≤ K ∧ c = 0
        · rw [if_pos hin0, if_neg (by omega), if_pos (by omega)]
        · rw [if_neg hin0, if_neg (by omega), if_neg (by omega)]

/-- After iterations `0 .. K-1` of the second init loop: row 1 of columns
`1 .. K` holds `c - 1`, row 0 of columns `1 .. K` holds the original `(0,0)`
entry, and every other cell is untouched. -/
theorem initBTo_spec :
    ∀ (K : Nat) (mat : GoMatrix), K < mat.size →
      ∃ mat', initBTo K mat = some mat' ∧ mat'.size = mat.size ∧
        ∀ r c, mat'.entry r c =
          if r = 1 ∧ 1 ≤ c ∧ c ≤ K then ((c : Int) - 1)
          else if r = 0 ∧ 1 ≤ c ∧ c ≤ K then mat.entry 0 0
          else mat.entry r c := by
  intro K
  induction K with
  | zero =>
    intro mat _
    refine ⟨mat, rfl, rfl, fun r c => ?_⟩
    rw [if_neg (by omega), if_neg (by omega)]
  | succ K ih =>
    intro mat h
    obtain ⟨mat1, he, hsz, hch⟩ := ih mat (by omega)
    have hK1 : K + 1 < mat1.size := by omega
    have h1 : 1 < mat1.size := by omega
    have h0 : 0 < mat1.size := by omega
    simp only [initBTo, he, Option.some_bind]
    rw [GoMatrix.set_in mat1 1 (K + 1) (K : Int) h1 hK1, Option.some_bind]
    set mat2 : GoMatrix :=
      ⟨mat1.size, fun i' j' =>
        if i' = 1 ∧ j' = K + 1 then (K : Int) else mat1.entry i' j'⟩ with hm2
    have hz2 : mat2.entry 0 0 = mat.entry 0 0 := by
      show (if (0 : Nat) = 1 ∧ (0 : Nat) = K + 1 then (K : Int)
          else mat1.entry 0 0) = mat.entry 0 0
      rw [if_neg (by omega), hch 0 0, if_neg (by omega), if_neg (by omega)]
    rw [GoMatrix.get_in mat2 0 0 h0 h0, Option.some_bind, hz2]
    rw [GoMatrix.set_in mat2 0 (K + 1) (mat.entry 0 0) h0 hK1]
    refine ⟨_, rfl, hsz, fun r c => ?_⟩
    show (if r = 0 ∧ c = K + 1 then mat.entry 0 0
      else if r = 1 ∧ c = K + 1 then (K : Int) else mat1.entry r c) = _
    by_cases hc : c = K + 1
    · subst hc
      by_cases hr0 : r = 0
      · subst hr0
        rw [if_pos ⟨rfl, rfl⟩, if_neg (by omega), if_pos (by omega)]
      · rw [if_neg (by omega)]
        by_cases hr1 : r = 1
        · subst hr1
          rw [if_pos ⟨rfl, rfl⟩, if_pos (by omega)]
          push_cast
          ring
        · rw [if_neg (by omega), hch, if_neg (by omega), if_neg (by omega),
            if_neg (by omega), if_neg (by omega)]
    · rw [if_neg (by omega), if_neg (by omega), hch]
      by_cases hin1 : r = 1 ∧ 1 ≤ c ∧ c ≤ K
      · rw [if_pos hin1, if_pos (by omega)]
      · rw [if_neg hin1]
        by_cases hin0 : r = 0 ∧ 1 ≤ c ∧ c ≤ K
        · rw [if_pos hin0, if_neg (by omega), if_pos (by omega)]
        · rw [if_neg hin0, if_neg (by omega), if_neg (by omega)]

/-- The first init loop panics as soon as the row index `K` reaches the
allocated side length (so whenever the loop bound is at least `size`). -/
theorem initATo_fail :
    ∀ (K : Nat) (mat : GoMatrix), 0 < mat.size → mat.size ≤ K →
      initATo K mat = none := by
  intro K
  induction K with
  | zero => intro mat h0 hK; omega
  | succ K ih =>
    intro mat h0 hK
    by_cases hle : mat.size ≤ K
    · simp only [initATo, ih mat h0 hle, Option.none_bind]
    · have hKsz : mat.size = K + 1 := by omega
      obtain ⟨mat1, he, hsz, _⟩ := initATo_spec K mat (by omega)
      simp only [initATo, he, Option.some_bind]
      rw [GoMatrix.set_out mat1 (K + 1) 1 (K : Int) (by omega), Option.none_bind]

/-- The second init loop panics as soon as the column index reaches the
allocated side length. -/
theorem initBTo_fail :
    ∀ (K : Nat) (mat : GoMatrix), 0 < mat.size → mat.size ≤ K →
      initBTo K mat = none := by
  intro K
  induction K with
  | zero => intro mat h0 hK; omega
  | succ K ih =>
    intro mat h0 hK
    by_cases hle : mat.size ≤ K
    · simp only [initBTo, ih mat h0 hle, Option.none_bind]
    · have hKsz : mat.size = K + 1 := by omega
      obtain ⟨mat1, he, hsz, _⟩ := initBTo_spec K mat (by omega)
      simp only [initBTo, he, Option.some_bind]
      rw [GoMatrix.set_out mat1 1 (K + 1) (K : Int) (by omega), Option.none_bind]

theorem getD_mem_of_lt {l : List Nat} {n : Nat} (h : n < l.length) :
    l.getD n 0 ∈ l := by
  rw [List.getD_eq_getElem l 0 h]
  exact List.getElem_mem h

/-- Invariant of the inner (`j`) loop at row `i = I+1`: starting from a
matrix that agrees with the recurrence table on the rows already finished
(plus the borders), running columns `1 .. J` succeeds, leaves `db` at the
last match position `lastPos b a[I+1] J`, and extends the agreement to the
first `J` interior cells of row `I+2`. -/
theorem innerTo_spec (a b : List Nat) (da : Nat → Nat) (I : Nat)
    (hI : I + 1 ≤ a.length)
    (hda : ∀ c ∈ b, da c = lastPos a c I) :
    ∀ J, J ≤ b.length → ∀ mat : GoMatrix,
      a.length + 2 ≤ mat.size → b.length + 2 ≤ mat.size →
      (∀ r c, r ≤ a.length + 1 → c ≤ b.length + 1 →
        (r ≤ 1 ∨ c ≤ 1 ∨ r ≤ I + 1) → mat.entry r c = LWmat a b r c) →
      ∃ mat', innerTo a b da (I + 1) J mat 0 =
          some (mat', lastPos b (a.getD I 0) J) ∧
        mat'.size = mat.size ∧
        (∀ r c, r ≤ a.length + 1 → c ≤ b.length + 1 →
          (r ≤ 1 ∨ c ≤ 1 ∨ r ≤ I + 1 ∨ (r = I + 2 ∧ c ≤ J + 1)) →
          mat'.entry r c = LWmat a b r c) := by
  intro J
  induction J with
  | zero =>
    intro _ mat hka hkb hmat
    refine ⟨mat, rfl, rfl, fun r c hr hc hreg => ?_⟩
    exact hmat r c hr hc (by omega)
  | succ J ih =>
    intro hJ mat hka hkb hmat
    obtain ⟨mat1, he, hsz, hch⟩ := ih (by omega) mat hka hkb hmat
    have hbj : b.getD J 0 ∈ b := getD_mem_of_lt (by omega)
    have hl1 := lastPos_le a (b.getD J 0) I
    have hl2 := lastPos_le b (a.getD I 0) J
    simp only [innerTo, he, Option.some_bind, innerBody, Nat.add_sub_cancel]
    rw [hda _ hbj]
    rw [GoMatrix.get_in mat1 (I + 1) (J + 1) (by omega) (by omega),
      Option.some_bind,
      hch (I + 1) (J + 1) (by omega) (by omega) (by omega)]
    rw [GoMatrix.get_in mat1 (I + 2) (J + 1) (by omega) (by omega),
      Option.some_bind,
      hch (I + 2) (J + 1) (by omega) (by omega) (by omega)]
    rw [GoMatrix.get_in mat1 (I + 1) (J + 2) (by omega) (by omega),
      Option.some_bind,
      hch (I + 1) (J + 2) (by omega) (by omega) (by omega)]
    rw [GoMatrix.get_in mat1 (lastPos a (b.getD J 0) I)
        (lastPos b (a.getD I 0) J) (by omega) (by omega),
      Option.some_bind,
      hch (lastPos a (b.getD J 0) I) (lastPos b (a.getD I 0) J)
        (by omega) (by omega) (by omega)]
    have hV : minimum
        [LWmat a b (I + 1) (J + 1) +
            (if a.getD I 0 = b.getD J 0 then (0 : Int) else 1),
          LWmat a b (I + 2) (J + 1) + 1,
          LWmat a b (I + 1) (J + 2) + 1,
          LWmat a b (lastPos a (b.getD J 0) I) (lastPos b (a.getD I 0) J) +
            (((I + 1 : Nat) : Int) - ((lastPos a (b.getD J 0) I : Nat) : Int) - 1) +
            1 +
            (((J + 1 : Nat) : Int) - ((lastPos b (a.getD I 0) J : Nat) : Int) - 1)] =
        LWmat a b (I + 2) (J + 2) := by
      rw [LWmat_interior]
      push_cast
      ring_nf
    rw [hV]
    rw [GoMatrix.set_in mat1 (I + 2) (J + 2) (LWmat a b (I + 2) (J + 2))
      (by omega) (by omega), Option.some_bind]
    have hdb : (if a.getD I 0 = b.getD J 0 then J + 1
        else lastPos b (a.getD I 0) J) = lastPos b (a.getD I 0) (J + 1) := by
      rw [lastPos]
      by_cases hcd : a.getD I 0 = b.getD J 0
      · rw [if_pos hcd, if_pos hcd.symm]
      · rw [if_neg hcd, if_neg (fun hh => hcd hh.symm)]
    rw [hdb]
    refine ⟨_, rfl, hsz, fun r c hr hc hreg => ?_⟩
    show (if r = I + 2 ∧ c = J + 2 then LWmat a b (I + 2) (J + 2)
      else mat1.entry r c) = LWmat a b r c
    by_cases hcell : r = I + 2 ∧ c = J + 2
    · rw [if_pos hcell, hcell.1, hcell.2]
    · rw [if_neg hcell]
      exact hch r c hr hc (by omega)

/-- Invariant of the outer (`i`) loop: starting from the freshly initialized
borders and a LastSeen map that is zero on every byte of `b`, running rows
`1 .. I` succeeds, establishes `da[c] = lastPos a c I` on the bytes of `b`,
and extends the agreement with the recurrence table to all rows `≤ I + 1`. -/
theorem outerTo_spec (a b : List Nat) :
    ∀ I, I ≤ a.length → ∀ (mat : GoMatrix) (da : Nat → Nat),
      a.length + 2 ≤ mat.size → b.length + 2 ≤ mat.size →
      (∀ c ∈ b, da c = 0) →
      (∀ r c, r ≤ a.length + 1 → c ≤ b.length + 1 →
        (r ≤ 1 ∨ c ≤ 1) → mat.entry r c = LWmat a b r c) →
      ∃ mat' da', outerTo a b I mat da = some (mat', da') ∧
        mat'.size = mat.size ∧
        (∀ c ∈ b, da' c = lastPos a c I) ∧
        (∀ r c, r ≤ a.length + 1 → c ≤ b.length + 1 →
          (r ≤ 1 ∨ c ≤ 1 ∨ r ≤ I + 1) → mat'.entry r c = LWmat a b r c) := by
  intro I
  induction I with
  | zero =>
    intro _ mat da hka hkb hda hmat
    refine ⟨mat, da, rfl, rfl, fun c hc => ?_, fun r c hr hc hreg => ?_⟩
    · rw [hda c hc]; rfl
    · exact hmat r c hr hc (by omega)
  | succ I ih =>
    intro hI mat da hka hkb hda hmat
    obtain ⟨mat1, da1, he1, hsz1, hda1, hch1⟩ :=
      ih (by omega) mat da hka hkb hda hmat
    obtain ⟨mat2, he2, hsz2, hch2⟩ :=
      innerTo_spec a b da1 I hI hda1 b.length (Nat.le_refl _) mat1
        (by omega) (by omega) hch1
    simp only [outerTo, he1, Option.some_bind, he2]
    refine ⟨mat2, _, rfl, by omega, fun c hc => ?_, fun r c hr hc hreg => ?_⟩
    · show (if c = a.getD I 0 then I + 1 else da1 c) = lastPos a c (I + 1)
      rw [lastPos]
      by_cases hcd : a.getD I 0 = c
      · rw [if_pos hcd.symm, if_pos hcd]
      · rw [if_neg (fun hh => hcd hh.symm), if_neg hcd, hda1 c hc]
    · exact hch2 r c hr hc (by omega)

/-- Row 0 and column 0 of the recurrence table hold the sentinel. -/
theorem LWmat_row0 (a b : List Nat) (j : Nat) :
    LWmat a b 0 j = (a.length : Int) + (b.length : Int) + 1 := by
  rw [LWmat]

theorem LWmat_col0 (a b : List Nat) (i : Nat) :
    LWmat a b i 0 = (a.length : Int) + (b.length : Int) + 1 := by
  match i with
  | 0 => rw [LWmat]
  | i + 1 => rw [LWmat]

/-- Row 1 of the recurrence table holds `j - 1` (distance from the empty
prefix of `a`). -/
theorem LWmat_row1 (a b : List Nat) (j : Nat) (hj : 1 ≤ j) :
    LWmat a b 1 j = (j : Int) - 1 := by
  match j with
  | j' + 1 =>
    rw [LWmat]
    omega

/-- Column 1 of the recurrence table holds `i - 1`. -/
theorem LWmat_col1 (a b : List Nat) (i : Nat) (hi : 1 ≤ i) :
    LWmat a b i 1 = (i : Int) - 1 := by
  match i with
  | 1 => rw [LWmat]; omega
  | i' + 2 => rw [LWmat]; omega

/-- Simulation theorem: on an engine whose workspace side length equals its
capacity (as `New` produces, and as every call preserves), with both inputs
non-empty and of length at most `maxSize - 2`, and with a LastSeen map whose
entries at the bytes of `b` are zeroed by the per-call reset, `Distance`
completes without panic and returns exactly the Lowrance–Wagner value
`LWmat a b (len a + 1) (len b + 1)`. -/
theorem distance_eq_LW (t : TrueDamerauLevenshtein) (a b : List Nat)
    (hsz : t.matrix.size = t.maxSize)
    (ha : 1 ≤ a.length) (hb : 1 ≤ b.length)
    (hA : a.length + 2 ≤ t.maxSize) (hB : b.length + 2 ≤ t.maxSize)
    (hreset : ∀ c ∈ b, resetRunes t.da (a ++ b) c = 0) :
    ∃ t', t.Distance a b =
      some (LWmat a b (a.length + 1) (b.length + 1), t') := by
  simp only [TrueDamerauLevenshtein.Distance]
  rw [if_neg (by omega), if_neg (by omega), if_neg (by omega),
    if_neg (by omega)]
  rw [GoMatrix.set_in t.matrix 0 0 _ (by omega) (by omega), Option.some_bind]
  set m0 : GoMatrix :=
    ⟨t.matrix.size, fun i' j' =>
      if i' = 0 ∧ j' = 0 then (a.length : Int) + (b.length : Int) + 1
      else t.matrix.entry i' j'⟩ with hm0
  have hm0sz : m0.size = t.matrix.size := rfl
  have hm0e : m0.entry 0 0 = (a.length : Int) + (b.length : Int) + 1 := by
    show (if (0 : Nat) = 0 ∧ (0 : Nat) = 0 then
        (a.length : Int) + (b.length : Int) + 1
      else t.matrix.entry 0 0) = _
    rw [if_pos ⟨rfl, rfl⟩]
  obtain ⟨mat1, he1, hsz1, hch1⟩ := initATo_spec (a.length + 1) m0 (by omega)
  rw [he1, Option.some_bind]
  obtain ⟨mat2, he2, hsz2, hch2⟩ := initBTo_spec (b.length + 1) mat1 (by omega)
  rw [he2, Option.some_bind]
  have hm1e : mat1.entry 0 0 = (a.length : Int) + (b.length : Int) + 1 := by
    rw [hch1 0 0, if_neg (by omega), if_neg (by omega), hm0e]
  have hborder : ∀ r c, r ≤ a.length + 1 → c ≤ b.length + 1 →
      (r ≤ 1 ∨ c ≤ 1) → mat2.entry r c = LWmat a b r c := by
    intro r c hr hc hreg
    rw [hch2 r c]
    by_cases h2a : r = 1 ∧ 1 ≤ c ∧ c ≤ b.length + 1
    · rw [if_pos h2a, h2a.1, LWmat_row1 a b c (by omega)]
    · rw [if_neg h2a]
      by_cases h2b : r = 0 ∧ 1 ≤ c ∧ c ≤ b.length + 1
      · rw [if_pos h2b, hm1e, h2b.1, LWmat_row0]
      · rw [if_neg h2b, hch1 r c]
        by_cases h1a : 1 ≤ r ∧ r ≤ a.length + 1 ∧ c = 1
        · rw [if_pos h1a, h1a.2.2, LWmat_col1 a b r (by omega)]
        · rw [if_neg h1a]
          by_cases h1b : 1 ≤ r ∧ r ≤ a.length + 1 ∧ c = 0
          · rw [if_pos h1b, hm0e, h1b.2.2, LWmat_col0]
          · rw [if_neg h1b]
            have hr0 : r = 0 := by omega
            have hc0 : c = 0 := by omega
            subst hr0; subst hc0
            rw [hm0e, LWmat_row0]
  obtain ⟨mat3, da3, he3, hsz3, _, hch3⟩ :=
    outerTo_spec a b a.length (Nat.le_refl _) mat2
      (resetRunes t.da (a ++ b)) (by omega) (by omega) hreset hborder
  rw [he3, Option.some_bind]
  rw [GoMatrix.get_in mat3 (a.length + 1) (b.length + 1) (by omega) (by omega),
    Option.some_bind,
    hch3 (a.length + 1) (b.length + 1) (by omega) (by omega) (by omega)]
  exact ⟨_, rfl⟩

/-- When both inputs are non-empty and within the capacity check but either
has length `maxSize - 1` or `maxSize`, the border-initialization loops index
past the end of the allocated `maxSize × maxSize` workspace and the call
panics (`none`). -/
theorem distance_oob_none (t : TrueDamerauLevenshtein) (a b : List Nat)
    (hsz : t.matrix.size = t.maxSize)
    (ha : 1 ≤ a.length) (hb : 1 ≤ b.length)
    (hA : a.length ≤ t.maxSize) (hB : b.length ≤ t.maxSize)
    (hoob : t.maxSize ≤ a.length + 1 ∨ t.maxSize ≤ b.length + 1) :
    t.Distance a b = none := by
  simp only [TrueDamerauLevenshtein.Distance]
  rw [if_neg (by omega), if_neg (by omega), if_neg (by omega),
    if_neg (by omega)]
  rw [GoMatrix.set_in t.matrix 0 0 _ (by omega) (by omega), Option.some_bind]
  set m0 : GoMatrix :=
    ⟨t.matrix.size, fun i' j' =>
      if i' = 0 ∧ j' = 0 then (a.length : Int) + (b.length : Int) + 1
      else t.matrix.entry i' j'⟩ with hm0
  have hm0sz : m0.size = t.matrix.size := rfl
  by_cases hfa : t.maxSize ≤ a.length + 1
  · rw [initATo_fail (a.length + 1) m0 (by omega) (by omega), Option.none_bind]
  · have hfb : t.maxSize ≤ b.length + 1 := by omega
    obtain ⟨mat1, he1, hsz1, _⟩ := initATo_spec (a.length + 1) m0 (by omega)
    rw [he1, Option.some_bind]
    rw [initBTo_fail (b.length + 1) mat1 (by omega) (by omega),
      Option.none_bind]

/-! Branch lemmas for the early returns of `Distance`, and the reset's
behaviour on ASCII bytes. -/

theorem distance_empty_left (t : TrueDamerauLevenshtein) (b : List Nat) :
    t.Distance [] b = some ((b.length : Int), t) := by
  simp [TrueDamerauLevenshtein.Distance]

theorem distance_empty_right (t : TrueDamerauLevenshtein) (a : List Nat)
    (ha : a ≠ []) : t.Distance a [] = some ((a.length : Int), t) := by
  have h1 : 1 ≤ a.length := List.length_pos.mpr ha
  simp only [TrueDamerauLevenshtein.Distance, List.length_nil]
  rw [if_neg (by omega), if_pos (by omega)]

theorem distance_over_capacity (t : TrueDamerauLevenshtein) (a b : List Nat)
    (ha : a ≠ []) (hb : b ≠ [])
    (h : t.maxSize < a.length ∨ t.maxSize < b.length) :
    t.Distance a b = some (-1, t) := by
  have h1 : 1 ≤ a.length := List.length_pos.mpr ha
  have h2 : 1 ≤ b.length := List.length_pos.mpr hb
  simp only [TrueDamerauLevenshtein.Distance]
  rw [if_neg (by omega), if_neg (by omega)]
  by_cases hA : t.maxSize < a.length
  · rw [if_pos hA]
  · rw [if_neg hA, if_pos (by omega)]

/-- Every byte a UTF-8 decoding step consumes beyond the first is a
continuation byte, hence at least `0x80`. -/
theorem utf8Step_take_ge (b0 : Nat) (t : List Nat) :
    ∀ y ∈ t.take (utf8Step b0 t).2, 0x80 ≤ y := by
  rcases t with _ | ⟨b1, _ | ⟨b2, _ | ⟨b3, rest⟩⟩⟩ <;>
    · intro y hy
      simp only [utf8Step] at hy
      split_ifs at hy <;> simp_all <;> omega

/-- An ASCII byte anywhere in the sequence always appears among the decoded
runes: it is never consumed as a continuation byte. -/
theorem ascii_mem_utf8RunesAux :
    ∀ (fuel : Nat) (l : List Nat), l.length ≤ fuel →
      ∀ x ∈ l, x < 0x80 → x ∈ utf8RunesAux fuel l := by
  intro fuel
  induction fuel with
  | zero =>
    intro l hl x hx _
    have hnil : l = [] := List.length_eq_zero.mp (by omega)
    subst hnil
    simp at hx
  | succ fuel ih =>
    intro l hl x hx hxa
    rcases l with _ | ⟨b0, tl⟩
    · simp at hx
    · simp only [utf8RunesAux]
      by_cases hx0 : x = b0
      · subst hx0
        have hstep : utf8Step x tl = (x, 0) := by
          unfold utf8Step
          rw [if_pos hxa]
        rw [hstep]
        exact List.mem_cons_self _ _
      · have hxt : x ∈ tl := by
          rcases List.mem_cons.mp hx with h | h
          · exact absurd h hx0
          · exact h
        refine List.mem_cons_of_mem _ (ih _ ?_ x ?_ hxa)
        · have hdl := List.length_drop (utf8Step b0 tl).2 tl
          have hltl : (b0 :: tl).length ≤ fuel + 1 := hl
          simp only [List.length_cons] at hltl
          omega
        · have hsplit := List.take_append_drop (utf8Step b0 tl).2 tl
          have hx2 : x ∈ tl.take (utf8Step b0 tl).2 ++
              tl.drop (utf8Step b0 tl).2 := by
            rw [hsplit]; exact hxt
          rcases List.mem_append.mp hx2 with h | h
          · exact absurd (utf8Step_take_ge b0 tl x h) (by omega)
          · exact h

/-- The per-call reset zeroes the LastSeen entry of every ASCII byte of `b`
(bytes below `0x80` always appear among the decoded runes of `a ++ b`). -/
theorem resetRunes_ascii (da : Nat → Nat) (a b : List Nat) (c : Nat)
    (hc : c ∈ b) (hca : c < 0x80) : resetRunes da (a ++ b) c = 0 := by
  rw [resetRunes_eq, if_pos]
  exact ascii_mem_utf8RunesAux (a ++ b).length (a ++ b) (Nat.le_refl _) c
    (List.mem_append_right a hc) hca

/-! Branch lemmas restated at the level of the returned value, and the
dimensions of a fresh engine. -/

theorem New_maxSize (k : Nat) : (New k).maxSize = k := rfl

theorem New_matrix_size (k : Nat) : (New k).matrix.size = k := rfl

theorem distVal_empty_left (t : TrueDamerauLevenshtein) (b : List Nat) :
    distVal t [] b = some ((b.length : Int)) := by
  rw [distVal, distance_empty_left, Option.map_some']

theorem distVal_empty_right (t : TrueDamerauLevenshtein) (a : List Nat)
    (ha : a ≠ []) : distVal t a [] = some ((a.length : Int)) := by
  rw [distVal, distance_empty_right _ _ ha, Option.map_some']

theorem distVal_over_capacity (t : TrueDamerauLevenshtein) (a b : List Nat)
    (ha : a ≠ []) (hb : b ≠ [])
    (h : t.maxSize < a.length ∨ t.maxSize < b.length) :
    distVal t a b = some (-1) := by
  rw [distVal, distance_over_capacity t a b ha hb h, Option.map_some']

theorem distVal_oob_none (t : TrueDamerauLevenshtein) (a b : List Nat)
    (hsz : t.matrix.size = t.maxSize)
    (ha : 1 ≤ a.length) (hb : 1 ≤ b.length)
    (hA : a.length ≤ t.maxSize) (hB : b.length ≤ t.maxSize)
    (hoob : t.maxSize ≤ a.length + 1 ∨ t.maxSize ≤ b.length + 1) :
    distVal t a b = none := by
  rw [distVal, distance_oob_none t a b hsz ha hb hA hB hoob]
  rfl

theorem distVal_eq_LW (t : TrueDamerauLevenshtein) (a b : List Nat)
    (hsz : t.matrix.size = t.maxSize)
    (ha : 1 ≤ a.length) (hb : 1 ≤ b.length)
    (hA : a.length + 2 ≤ t.maxSize) (hB : b.length + 2 ≤ t.maxSize)
    (hreset : ∀ c ∈ b, resetRunes t.da (a ++ b) c = 0) :
    distVal t a b = some (LWmat a b (a.length + 1) (b.length + 1)) := by
  obtain ⟨t', he⟩ := distance_eq_LW t a b hsz ha hb hA hB hreset
  rw [distVal, he, Option.map_some']

/-! Settling the claims. -/

/-- Claim C1, counterexample: with `New(3)` and inputs of length `3 ≤ maxSize`
and `1 ≤ maxSize`, the call does not return the recurrence value — it panics
(index out of range, embedded as `none`), because the workspace is only
`3 × 3`. -/
theorem c1_counterexample :
    distVal (New 3) [97, 98, 99] [97] = none ∧
      (none : Option Int) ≠ some (LWmat [97, 98, 99] [97] 4 2) :=
  ⟨by decide, by simp⟩

/-- Claim C1 (amended): for every engine `New k` and non-empty `a`, `b` of
length at most `k - 2`, `Distance` returns exactly the Lowrance–Wagner
recurrence value `D[m+1][n+1]` of spec §4. -/
theorem c1_distance_eq_recurrence (k : Nat) (a b : List Nat)
    (ha : 1 ≤ a.length) (hb : 1 ≤ b.length)
    (hA : a.length + 2 ≤ k) (hB : b.length + 2 ≤ k) :
    distVal (New k) a b =
      some (LWmat a b (a.length + 1) (b.length + 1)) :=
  distVal_eq_LW (New k) a b rfl ha hb hA hB (fun c _ => resetRunes_zero _ c)

/-- Witness for C1's amended theorem at `k = 4`, `a = "a"`, `b = "b"`. -/
theorem c1_witness :
    1 ≤ ([97] : List Nat).length ∧ 1 ≤ ([98] : List Nat).length ∧
      ([97] : List Nat).length + 2 ≤ 4 ∧ ([98] : List Nat).length + 2 ≤ 4 ∧
      distVal (New 4) [97] [98] = some (LWmat [97] [98] 2 2) :=
  ⟨by decide, by decide, by decide, by decide,
    c1_distance_eq_recurrence 4 [97] [98] (by decide) (by decide)
      (by decide) (by decide)⟩

/-- Claim C2 (code bug): on `New(3)`, inputs of length exactly `3` pass the
capacity check but the border-initialization loop indexes row `3` of the
`3 × 3` workspace — the call panics instead of succeeding. -/
theorem c2_exact_capacity_panic :
    ([97, 98, 99] : List Nat).length = 3 ∧
      distVal (New 3) [97, 98, 99] [97, 98, 99] = none :=
  ⟨rfl, by decide⟩

/-- Claim C3 (code bug): `New maxSize` allocates a `maxSize × maxSize`
workspace — not `(maxSize+2) × (maxSize+2)` — with every cell zero, and the
empty LastSeen map (every lookup yields 0). -/
theorem c3_alloc (maxSize : Nat) :
    (New maxSize).matrix.size = maxSize ∧
      (New maxSize).matrix.size ≠ maxSize + 2 ∧
      (∀ i j, (New maxSize).matrix.entry i j = 0) ∧
      (∀ r, (New maxSize).da r = 0) :=
  ⟨rfl, by show maxSize ≠ maxSize + 2; omega, fun _ _ => rfl, fun _ => rfl⟩

/-- Claim C4, counterexample, both directions of the stated iff fail.
First, a pair whose second input exceeds `maxSize = 1` does not yield the
sentinel: `Distance("", "ab")` hits the empty-input short-circuit before the
capacity check and returns `2`.  Second, a pair with both lengths within
`maxSize` can return `-1`: on a `New 10` engine whose previous call was
`Distance("\xC3\xC3\xC3", "\xC3\xC3")`, the in-capacity non-empty call
`Distance("a", "bcad\xC3")` (lengths 1 and 5) computes the sentinel value
`-1` through the stale byte-keyed LastSeen entry `da[0xC3] = 3`, while the
same pair on a fresh engine returns `4`. -/
theorem c4_counterexample :
    (([97, 98] : List Nat).length > 1 ∧
      distVal (New 1) [] [97, 98] = some 2 ∧
      (some (2 : Int) : Option Int) ≠ some (-1)) ∧
      (([0x61] : List Nat).length ≤ 10 ∧
        ([0x62, 0x63, 0x61, 0x64, 0xC3] : List Nat).length ≤ 10 ∧
        c4StaleCallVal = some (-1) ∧
        distVal (New 10) [0x61] [0x62, 0x63, 0x61, 0x64, 0xC3] = some 4) :=
  ⟨⟨by decide, by decide, by decide⟩,
    by decide, by decide, by decide, by decide⟩

/-- Claim C4 (amended): for every engine whose workspace side length equals
its capacity (as `New` produces and every call preserves) and inputs whose
second string is all-ASCII, the call returns the sentinel `-1` exactly when
both inputs are non-empty and at least one exceeds `maxSize`.  The
both-non-empty condition is forced because the empty-input short-circuits run
before the capacity check; the ASCII restriction is forced because a stale
byte-keyed LastSeen entry left by a prior call can otherwise drive the
computed value of an in-capacity pair to `-1` itself. -/
theorem c4_sentinel_iff (t : TrueDamerauLevenshtein) (a b : List Nat)
    (hsz : t.matrix.size = t.maxSize) (hball : ∀ x ∈ b, x < 0x80) :
    distVal t a b = some (-1) ↔
      (a ≠ [] ∧ b ≠ [] ∧ (t.maxSize < a.length ∨ t.maxSize < b.length)) := by
  by_cases ha : a = []
  · subst ha
    rw [distVal_empty_left]
    simp only [ne_eq, not_true_eq_false, false_and, iff_false]
    intro h
    have := Option.some.inj h
    omega
  · by_cases hb : b = []
    · subst hb
      rw [distVal_empty_right _ _ ha]
      simp only [ne_eq, not_true_eq_false, false_and, and_false, iff_false]
      intro h
      have := Option.some.inj h
      omega
    · have h1 : 1 ≤ a.length := List.length_pos.mpr ha
      have h2 : 1 ≤ b.length := List.length_pos.mpr hb
      by_cases hcap : t.maxSize < a.length ∨ t.maxSize < b.length
      · rw [distVal_over_capacity _ _ _ ha hb hcap]
        simp [ha, hb, hcap]
      · constructor
        · intro hL
          exfalso
          by_cases htight : a.length + 2 ≤ t.maxSize ∧
            b.length + 2 ≤ t.maxSize
          · rw [distVal_eq_LW t a b hsz h1 h2 htight.1 htight.2
              (fun c hc => resetRunes_ascii t.da a b c hc (hball c hc))] at hL
            have hnn := LWmat_nonneg a b (a.length + 1) (b.length + 1)
            have := Option.some.inj hL
            omega
          · rw [distVal_oob_none t a b hsz h1 h2
              (by omega) (by omega) (by omega)] at hL
            exact Option.noConfusion hL
        · intro hR
          exact absurd hR.2.2 hcap

/-- Witness for C4's amended theorem on an engine state reachable after a
prior call. -/
theorem c4_witness :
    engineAfterCall.matrix.size = engineAfterCall.maxSize ∧
      (∀ x ∈ ([98, 99] : List Nat), x < 0x80) ∧
      (distVal engineAfterCall [97, 98] [98, 99] = some (-1) ↔
        (([97, 98] : List Nat) ≠ [] ∧ ([98, 99] : List Nat) ≠ [] ∧
          (engineAfterCall.maxSize < ([97, 98] : List Nat).length ∨
            engineAfterCall.maxSize < ([98, 99] : List Nat).length))) :=
  ⟨by decide, by decide,
    c4_sentinel_iff engineAfterCall [97, 98] [98, 99] (by decide) (by decide)⟩

/-- Claim C5, counterexample: the same pair of inputs gives `1` after a prior
call that planted the stale byte-keyed LastSeen entry `da[0xC3] = 1`, but `2`
on a fresh engine — results can depend on the call history. -/
theorem c5_counterexample :
    c5SecondCallVal = some 1 ∧
      distVal (New 10) [0x61, 0x62] [0x62, 0xC3] = some 2 ∧
      c5SecondCallVal ≠ distVal (New 10) [0x61, 0x62] [0x62, 0xC3] :=
  ⟨by decide, by decide, by decide⟩

/-- Claim C5 (amended): when every byte of `b` is ASCII (below `0x80`), the
per-call reset really zeroes every LastSeen entry the computation consults,
so the result on any engine state with the right dimensions equals the result
on a fresh engine — history independence holds for ASCII inputs. -/
theorem c5_history_independent_ascii (k : Nat) (a b : List Nat)
    (t : TrueDamerauLevenshtein) (hmax : t.maxSize = k)
    (hsz : t.matrix.size = k) (hball : ∀ x ∈ b, x < 0x80) :
    distVal t a b = distVal (New k) a b := by
  have hnm := New_maxSize k
  have hns := New_matrix_size k
  by_cases ha : a = []
  · subst ha
    rw [distVal_empty_left, distVal_empty_left]
  · by_cases hb : b = []
    · subst hb
      rw [distVal_empty_right _ _ ha, distVal_empty_right _ _ ha]
    · have h1 : 1 ≤ a.length := List.length_pos.mpr ha
      have h2 : 1 ≤ b.length := List.length_pos.mpr hb
      by_cases hcap : k < a.length ∨ k < b.length
      · rw [distVal_over_capacity t _ _ ha hb (by omega),
          distVal_over_capacity _ _ _ ha hb (by omega)]
      · by_cases htight : a.length + 2 ≤ k ∧ b.length + 2 ≤ k
        · rw [distVal_eq_LW t a b (by omega) h1 h2 (by omega) (by omega)
            (fun c hc => resetRunes_ascii t.da a b c hc (hball c hc)),
            distVal_eq_LW (New k) a b (by omega) h1 h2 (by omega) (by omega)
              (fun c _ => resetRunes_zero _ c)]
        · rw [distVal_oob_none t a b (by omega) h1 h2 (by omega) (by omega)
              (by omega),
            distVal_oob_none (New k) a b (by omega) h1 h2 (by omega)
              (by omega) (by omega)]

/-- Witness for C5's amended theorem: an engine that already served one call
returns the same value as a fresh engine on ASCII inputs. -/
theorem c5_witness :
    engineAfterCall.maxSize = 6 ∧ engineAfterCall.matrix.size = 6 ∧
      (∀ x ∈ ([98, 99] : List Nat), x < 0x80) ∧
      distVal engineAfterCall [97, 98] [98, 99] =
        distVal (New 6) [97, 98] [98, 99] :=
  ⟨by decide, by decide, by decide,
    c5_history_independent_ascii 6 [97, 98] [98, 99] engineAfterCall
      (by decide) (by decide) (by decide)⟩

set_option maxRecDepth 80000 in
/-- Claim C6, counterexample: `distance("a cat", "an act")` is `2` on the
code (true Damerau–Levenshtein: insert `n`, then transpose the adjacent
`c`/`a`), not `3` as the spec scenario states (3 is the value of the
restricted optimal-string-alignment variant). -/
theorem c6_counterexample :
    distVal (New 100) aCat anAct = some 2 ∧
      (some (2 : Int) : Option Int) ≠ some 3 :=
  ⟨by decide, by decide⟩

set_option maxRecDepth 80000 in
/-- Claim C6 (amended): the six spec §8 scenarios, run in order through the
shared `New 100` engine exactly as the package-level `Distance` wrapper runs
them, return `0, 3, 1, 2, 2, 2` — all as claimed except
`distance("a cat", "an act")`, which is `2`, not `3`. -/
theorem c6_scenarios : scenarioResults = some [0, 3, 1, 2, 2, 2] := by
  decide

/-- Claim C7 (confirmed): the empty-input short-circuits apply to every
engine state and every string, with no further conditions:
`Distance("", s) = len s`, `Distance(s, "") = len s`, and
`Distance("", "") = 0`. -/
theorem c7_empty_shortcircuit (t : TrueDamerauLevenshtein) (s : List Nat) :
    distVal t [] s = some (s.length : Int) ∧
      distVal t s [] = some (s.length : Int) ∧
      distVal t [] [] = some 0 := by
  refine ⟨distVal_empty_left t s, ?_, distVal_empty_left t []⟩
  by_cases hs : s = []
  · subst hs
    exact distVal_empty_left t []
  · exact distVal_empty_right t s hs

/-- Claim C8, counterexample: identity fails beyond the capacity: on
`New 1`, `Distance(s, s)` for the length-2 string `"ab"` returns the
sentinel `-1`, not `0`. -/
theorem c8_counterexample :
    distVal (New 1) [97, 98] [97, 98] = some (-1) ∧
      (some (-1 : Int) : Option Int) ≠ some 0 :=
  ⟨by decide, by decide⟩

/-- Claim C8 (amended): identity holds on a fresh engine for every string
that fits the workspace: `len s ≤ maxSize - 2` gives `Distance(s, s) = 0`
(and the empty string gives `0` outright). -/
theorem c8_identity (k : Nat) (s : List Nat) (h : s.length + 2 ≤ k) :
    distVal (New k) s s = some 0 := by
  by_cases hs : s = []
  · subst hs
    exact distVal_empty_left (New k) []
  · have h1 : 1 ≤ s.length := List.length_pos.mpr hs
    rw [distVal_eq_LW (New k) s s rfl h1 h1 h h
      (fun c _ => resetRunes_zero _ c),
      LWmat_diag s s.length (Nat.le_refl _)]

/-- Witness for C8's amended theorem at `k = 3`, `s = "a"`. -/
theorem c8_witness :
    ([97] : List Nat).length + 2 ≤ 3 ∧ distVal (New 3) [97] [97] = some 0 :=
  ⟨by decide, c8_identity 3 [97] (by decide)⟩

/-- Claim C9 (confirmed): `Distance` is symmetric in its two arguments on a
fresh engine — in every branch: both empty-input short-circuits, the `-1`
sentinel, the out-of-range panic, and the computed recurrence value (where it
follows from the symmetry of the Lowrance–Wagner table). -/
theorem c9_symmetry (k : Nat) (a b : List Nat) :
    distVal (New k) a b = distVal (New k) b a := by
  have hnm := New_maxSize k
  have hns := New_matrix_size k
  by_cases ha : a = []
  · subst ha
    by_cases hb : b = []
    · subst hb
      rfl
    · rw [distVal_empty_left, distVal_empty_right _ _ hb]
  · by_cases hb : b = []
    · subst hb
      rw [distVal_empty_left, distVal_empty_right _ _ ha]
    · have h1 : 1 ≤ a.length := List.length_pos.mpr ha
      have h2 : 1 ≤ b.length := List.length_pos.mpr hb
      by_cases hcap : k < a.length ∨ k < b.length
      · rw [distVal_over_capacity _ _ _ ha hb (by omega),
          distVal_over_capacity _ _ _ hb ha (by omega)]
      · by_cases htight : a.length + 2 ≤ k ∧ b.length + 2 ≤ k
        · rw [distVal_eq_LW (New k) a b (by omega) h1 h2 (by omega) (by omega)
              (fun c _ => resetRunes_zero _ c),
            distVal_eq_LW (New k) b a (by omega) h2 h1 (by omega) (by omega)
              (fun c _ => resetRunes_zero _ c),
            LWmat_symm a b]
        · rw [distVal_oob_none (New k) a b (by omega) h1 h2 (by omega)
              (by omega) (by omega),
            distVal_oob_none (New k) b a (by omega) h2 h1 (by omega)
              (by omega) (by omega)]

/-- Claim C10 (confirmed): on a fresh `New k` with `k ≥ 3` and non-empty
inputs of length at most `k - 2`, every workspace and LastSeen access is in
bounds — the embedded call takes no panic branch and returns `some` — and
the returned distance is non-negative. -/
theorem c10_inbounds_safety (k : Nat) (a b : List Nat)
    (hk : 3 ≤ k) (ha : 1 ≤ a.length) (hb : 1 ≤ b.length)
    (hA : a.length ≤ k - 2) (hB : b.length ≤ k - 2) :
    ∃ r t', (New k).Distance a b = some (r, t') ∧ 0 ≤ r := by
  have hnm := New_maxSize k
  have hns := New_matrix_size k
  obtain ⟨t', he⟩ := distance_eq_LW (New k) a b rfl ha hb (by omega)
    (by omega) (fun c _ => resetRunes_zero _ c)
  exact ⟨_, t', he, LWmat_nonneg _ _ _ _⟩

/-- Witness for C10 at `k = 3`, `a = "a"`, `b = "b"`. -/
theorem c10_witness :
    3 ≤ 3 ∧ 1 ≤ ([97] : List Nat).length ∧ 1 ≤ ([98] : List Nat).length ∧
      ([97] : List Nat).length ≤ 3 - 2 ∧ ([98] : List Nat).length ≤ 3 - 2 ∧
      ∃ r t', (New 3).Distance [97] [98] = some (r, t') ∧ 0 ≤ r :=
  ⟨by decide, by decide, by decide, by decide, by decide,
    c10_inbounds_safety 3 [97] [98] (by decide) (by decide) (by decide)
      (by decide) (by decide)⟩

end tdl
